import Mathlib

set_option maxRecDepth 100000

/-
Verification of the geometric core of the soft-and-dense motion-forecasting
utilities (src/utils.py): reference-path construction, cubic-root based
point-to-curve projection, goal-target scoring, the square-square energy
loss, goal-lattice deduplication and the FDE centroid refinement.

Embedding conventions, used consistently below:

* A 2D point is a pair of rationals (`Q2`).  The Python code computes with
  IEEE doubles; we model the arithmetic exactly over ℚ (the claims under
  study are about the algebraic/structural behaviour of the code, not about
  rounding of doubles).
* `get_dis_p2p` returns `sqrt((x1-x2)^2 + (y1-y2)^2)`.  Wherever the source
  only COMPARES distances (`d <= R`, `argmin`, `min`/`max` of distances,
  `d <= 1e-7`), we carry the SQUARE of the distance and compare squares:
  `sqrt` is strictly monotone on nonnegatives, so `sqrt a <= sqrt b ↔ a <= b`
  and `min`/`max`/`argmin` commute with it.  Constants are squared
  accordingly (15 ↦ 225, 3 ↦ 9, 1e-7 ↦ 1e-14).  Where the VALUE of a square
  root enters arithmetic non-monotonically (the unit-vector components, the
  sum `goal_dist + traj_dist` in `get_sse_prep`, the FDE weights), we use
  `Real.sqrt` over ℝ.
* `np.roots` (an eigenvalue computation) is modeled as an uninterpreted
  solver parameter producing a list of complex numbers, each a pair
  (re, im) of rationals; `solve_cubic` filters that list exactly as the
  source does (`np.isreal`, i.e. im = 0, and 0 <= root <= 1; numpy orders
  complex scalars lexicographically, which for im = 0 is the real order).
* Python exceptions are modeled by `Option`/an explicit loop-result type;
  a bare `except:` corresponds to matching away the `none`.
-/

namespace SoftDense

/-- A 2D point with exact rational coordinates. -/
abbrev Q2 := ℚ × ℚ

/-- Square of the Euclidean distance computed by `get_dis_p2p`
(`np.sqrt(np.square(x1-x2) + np.square(y1-y2))`); the square root itself is
taken in ℝ only where its value (not merely its order) matters. -/
def sqDist (p q : Q2) : ℚ := (p.1 - q.1) ^ 2 + (p.2 - q.2) ^ 2

/-- Componentwise subtraction of points (numpy array subtraction). -/
def sub2 (p q : Q2) : Q2 := (p.1 - q.1, p.2 - q.2)

/-- Dot product of 2D vectors (`np.dot`). -/
def dot2 (u v : Q2) : ℚ := u.1 * v.1 + u.2 * v.2

/-- Squared Euclidean norm of a 2D vector. -/
def sqNorm (v : Q2) : ℚ := v.1 ^ 2 + v.2 ^ 2

/-- Midpoint `(p + q) / 2` used by the densification step. -/
def midpoint2 (p q : Q2) : Q2 := ((p.1 + q.1) / 2, (p.2 + q.2) / 2)

/-- Auxiliary loop of `idxmin`: scan the remaining values, keeping the index
of the best (strictly smaller) value seen so far. -/
def idxminAux : List ℚ → ℕ → ℕ → ℚ → ℕ
| [], _, best, _ => best
| v :: rest, i, best, bv =>
  if v < bv then idxminAux rest (i + 1) i v else idxminAux rest (i + 1) best bv

/-- First index of the minimum of a list (`np.argmin`): on an empty array
numpy raises, which callers below surface as `none`; the 0 returned here for
`[]` is never used on that path. -/
def idxmin : List ℚ → ℕ
| [] => 0
| v :: rest => idxminAux rest 1 0 v

/-- Python sequence indexing `l[i]` with negative indices counting from the
end; out-of-range access (an `IndexError`) is `none`. -/
def pyGet (l : List Q2) (i : ℤ) : Option Q2 :=
  if 0 ≤ i then l.get? i.toNat
  else if (-i).toNat ≤ l.length then l.get? (l.length - (-i).toNat) else none

/-- Body of one densification pass: for every consecutive pair append the
first point and the midpoint (the final point is appended by
`densifyStep`). -/
def densBody : List Q2 → List Q2
| p :: q :: rest => p :: midpoint2 p q :: densBody (q :: rest)
| _ => []

/-- One iteration of the densification `while` loop of
`construct_reference_path`.  On the empty list the trailing
`reference_path[-1]` raises an `IndexError`, modeled as `none`. -/
def densifyStep : List Q2 → Option (List Q2)
| [] => none
| p :: rest => some (densBody (p :: rest) ++ [(p :: rest).getLastD (0, 0)])

/-- Result of running the densification `while` loop for a bounded number of
iterations: the loop has exited (`done`), raised (`err`), or is still
running with the current path (`more`). -/
inductive LoopRes where
| done (l : List Q2)
| err
| more (l : List Q2)
deriving DecidableEq

/-- Run at most `fuel` iterations of `while len(reference_path) < 9`.
For an input of length ≥ 2 each pass maps length n to 2n-1, so the loop
always exits within 3 passes and `densifyIter 9` is the loop's exact
semantics on that domain; on shorter inputs the loop raises (length 0) or
never exits (length 1), which the C8 theorems below establish. -/
def densifyIter : ℕ → List Q2 → LoopRes
| 0, l => if 9 ≤ l.length then .done l else .more l
| fuel + 1, l =>
  if 9 ≤ l.length then .done l
  else
    match densifyStep l with
    | none => .err
    | some l2 => densifyIter fuel l2

/-- Squared threshold 1e-14, the square of the source's 1e-7 tolerance. -/
def eps2 : ℚ := 1 / 10 ^ 14

/-- Index of the path point closest to the target
(`np.argmin(get_dis_batch(reference_path, point_label))`); `argmin` over
Euclidean distances equals `argmin` over their squares. -/
def pathClosestIdx (path : List Q2) (label : Q2) : ℕ :=
  idxmin (path.map (fun p => sqDist p label))

/-- Rigid shift `reference_path - (closest_point - point_label)` placing the
closest path point exactly on the target. -/
def shiftedPath (path : List Q2) (label : Q2) : List Q2 :=
  let c := path.getD (pathClosestIdx path label) (0, 0)
  path.map (fun p => sub2 p (sub2 c label))

/-- Squared filtering radius of `construct_reference_path`:
`R = max(min(max(15, d_half), d_first, max(d_end, d_start)), 3)` with every
distance and constant squared (the source compares only distances against
`R`, so carrying `R^2` is exact).  The label accesses `labels[-1]`,
`labels[-future_frame_num//2]` and `labels[0]` can raise `IndexError`,
hence the `Option`. -/
def radiusSq (labels shifted : List Q2) (cIdx : ℕ) (fut : ℕ) : Option ℚ :=
  (pyGet labels (-1)).bind fun lastL =>
  (pyGet labels ((-(fut : ℤ)).fdiv 2)).bind fun halfL =>
  (pyGet labels 0).map fun firstL =>
    max
      (min (max 225 (sqDist lastL halfL))
        (min (sqDist lastL firstL)
          (max (sqDist (shifted.getLastD (0, 0)) (shifted.getD cIdx (0, 0)))
            (sqDist (shifted.headD (0, 0)) (shifted.getD cIdx (0, 0))))))
      9

/-- Fueled form of `while i < len(labels) and
get_dis_p2p(labels[-1-i], closest) <= R: i += 1` (squared comparison); the
guard can pass at most `len(labels)` times, so fuel `len(labels)` is exact. -/
def trajLoopGo (labels : List Q2) (c : Q2) (Rsq : ℚ) : ℕ → ℕ → ℕ
| 0, i => i
| fuel + 1, i =>
  if i < labels.length ∧ sqDist (labels.getD (labels.length - 1 - i) (0, 0)) c ≤ Rsq then
    trajLoopGo labels c Rsq fuel (i + 1)
  else i

/-- The final value of `i` in the trajectory-segment scan. -/
def trajLoop (labels : List Q2) (c : Q2) (Rsq : ℚ) : ℕ :=
  trajLoopGo labels c Rsq labels.length 0

/-- The (unnormalized) trajectory direction vector
`labels[-future_frame_num//3] - labels[-1]` of
`get_unit_vector(labels[-1], labels[-future_frame_num//3])`.
`none` models the bare `except:` that sets `has_traj = False`, triggered by
either an `IndexError` on the lookups or the `ZeroDivisionError` of a
zero-length vector.  Only the direction's SIGN information is used by the
callers (dot-product sign tests), which is invariant under the positive
normalization factor, so the vector is kept unnormalized. -/
def trajVec (labels : List Q2) (fut : ℕ) : Option Q2 :=
  match pyGet labels (-1), pyGet labels ((-(fut : ℤ)).fdiv 3) with
  | some a, some b => if a = b then none else some (sub2 b a)
  | _, _ => none

/-- Recomputed closest-point index on the filtered path. -/
def closestIdx2 (filtered : List Q2) (label : Q2) : ℕ :=
  idxmin (filtered.map (fun p => sqDist p label))

/-- Squared `start_dist = np.linalg.norm(closest - reference_path[0])`. -/
def startDistSq (filtered : List Q2) (label : Q2) : ℚ :=
  sqDist (filtered.getD (closestIdx2 filtered label) (0, 0)) (filtered.headD (0, 0))

/-- Squared `end_dist = np.linalg.norm(closest - reference_path[-1])`. -/
def endDistSq (filtered : List Q2) (label : Q2) : ℚ :=
  sqDist (filtered.getD (closestIdx2 filtered label) (0, 0)) (filtered.getLastD (0, 0))

/-- Unnormalized `start_direction` vector
`reference_path[0] - reference_path[closest_point_idx]`. -/
def vsOf (filtered : List Q2) (label : Q2) : Q2 :=
  sub2 (filtered.headD (0, 0)) (filtered.getD (closestIdx2 filtered label) (0, 0))

/-- Unnormalized `end_direction` vector
`reference_path[-1] - reference_path[closest_point_idx]`. -/
def veOf (filtered : List Q2) (label : Q2) : Q2 :=
  sub2 (filtered.getLastD (0, 0)) (filtered.getD (closestIdx2 filtered label) (0, 0))

/-- The interior-case splice guard
`start_hypo * end_hypo <= 0 and not (abs(start_hypo) <= 1e-7 and abs(end_hypo) <= 1e-7)`
where `start_hypo = np.dot(traj_direction, start_direction)` is a dot product
of UNIT vectors.  With `ds, de` the unnormalized dot products and
`nT, nS, nE` the squared norms:
`start_hypo = ds / (sqrt nT * sqrt nS)`, so
`start_hypo * end_hypo <= 0 ↔ ds * de <= 0` (positive denominators) and
`abs start_hypo <= 1e-7 ↔ ds^2 <= 1e-14 * nT * nS` (square both sides;
see `abs_div_sqrt_le_iff` below for the proved equivalence). -/
def spliceCondB (vt vs ve : Q2) : Bool :=
  decide (dot2 vt vs * dot2 vt ve ≤ 0) &&
    !(decide (dot2 vt vs ^ 2 ≤ eps2 * sqNorm vt * sqNorm vs) &&
      decide (dot2 vt ve ^ 2 ≤ eps2 * sqNorm vt * sqNorm ve))

/-- Interior case of the trajectory splice.  The source branches on
`start_hypo < end_hypo` with `start_hypo * end_hypo <= 0` already known;
under that sign condition, for unit-vector dot products
`ds/sqrt(nT*nS) < de/sqrt(nT*nE) ↔ (ds < 0 ∨ 0 < de)` (proved below as
`div_sqrt_lt_div_sqrt_iff`), which is the branch test used here. -/
def spliceInterior (vt vs ve : Q2) (cIdx2 : ℕ) (filtered trajSeg : List Q2) : List Q2 :=
  if spliceCondB vt vs ve then
    if dot2 vt vs < 0 ∨ 0 < dot2 vt ve then
      filtered.take cIdx2 ++ trajSeg.reverse
    else
      trajSeg ++ filtered.drop cIdx2
  else filtered

/-- The trajectory-splice phase of `construct_reference_path` (everything
after the radius filter), operating on the filtered path.  Endpoint dot
tests `np.dot(traj_direction, end_direction) > 0` are sign tests of
unit-vector dot products, hence equal to the sign tests of the
unnormalized dot products used here. -/
def spliceStep (labels filtered : List Q2) (label : Q2) (Rsq : ℚ) (fut : ℕ) : List Q2 :=
  let cIdx2 := closestIdx2 filtered label
  let closest := filtered.getD cIdx2 (0, 0)
  let i1 := trajLoop labels closest Rsq - 1
  let trajSeg := labels.drop (labels.length - (1 + i1))
  match trajVec labels fut with
  | none => filtered
  | some vt =>
    if startDistSq filtered label ≤ eps2 ∧ endDistSq filtered label ≤ eps2 then filtered
    else if startDistSq filtered label ≤ eps2 then
      if 0 < dot2 vt (veOf filtered label) then trajSeg
      else trajSeg ++ filtered.drop cIdx2
    else if endDistSq filtered label ≤ eps2 then
      if 0 < dot2 vt (vsOf filtered label) then trajSeg
      else filtered.take cIdx2 ++ trajSeg.reverse
    else
      spliceInterior vt (vsOf filtered label) (veOf filtered label) cIdx2 filtered trajSeg

/-- `construct_reference_path` after densification: shift, radius filter and
splice.  `none` marks a raised exception (label `IndexError` in the radius
computation, or `np.argmin` on an empty filtered path). -/
def crpCore (labels path : List Q2) (label : Q2) (fut : ℕ) : Option (List Q2) :=
  let cIdx := pathClosestIdx path label
  let shifted := shiftedPath path label
  match radiusSq labels shifted cIdx fut with
  | none => none
  | some Rsq =>
    let filtered := shifted.filter (fun p => decide (sqDist p label ≤ Rsq))
    if filtered = [] then none
    else some (spliceStep labels filtered label Rsq fut)

/-- Full `construct_reference_path(labels, reference_path, point_label,
future_frame_num)`.  `none` covers the raising/non-returning executions
(see the C8 theorems for the short-input behaviour of the densify loop). -/
def constructReferencePath (labels refPath : List Q2) (label : Q2) (fut : ℕ) :
    Option (List Q2) :=
  match densifyIter 9 refPath with
  | .done path => crpCore labels path label fut
  | .err => none
  | .more _ => none

/-- The squared filtering radius actually used by `constructReferencePath`
on raw inputs (densify, shift, then the R formula), exposed for direct
evaluation. -/
def crpRadius (labels refPath : List Q2) (label : Q2) (fut : ℕ) : Option ℚ :=
  match densifyIter 9 refPath with
  | .done path => radiusSq labels (shiftedPath path label) (pathClosestIdx path label) fut
  | .err => none
  | .more _ => none

/-- Coefficients `{a_2, a_1, a_0, b_2, b_1, b_0}` of a quadratic path
`x(t) = a_2 t^2 + a_1 t + a_0`, `y(t) = b_2 t^2 + b_1 t + b_0`. -/
structure Coeff where
  a2 : ℚ
  a1 : ℚ
  a0 : ℚ
  b2 : ℚ
  b1 : ℚ
  b0 : ℚ
deriving DecidableEq

/-- The curve point at parameter `t`. -/
def curveAt (c : Coeff) (t : ℚ) : Q2 :=
  (c.a2 * t ^ 2 + c.a1 * t + c.a0, c.b2 * t ^ 2 + c.b1 * t + c.b0)

/-- The cubic coefficients `(c_3, c_2, c_1, c_0)` assembled by `inv_proj`
from the curve coefficients and the query point. -/
def cubicCoeffs (p : Q2) (c : Coeff) : ℚ × ℚ × ℚ × ℚ :=
  (4 * c.a2 ^ 2 + 4 * c.b2 ^ 2,
   6 * c.a1 * c.a2 + 6 * c.b1 * c.b2,
   -4 * c.a2 * p.1 + 2 * c.a1 ^ 2 + 4 * c.a0 * c.a2 - 4 * c.b2 * p.2 + 2 * c.b1 ^ 2 +
     4 * c.b0 * c.b2,
   -2 * c.a1 * p.1 + 2 * c.a0 * c.a1 - 2 * c.b1 * p.2 + 2 * c.b0 * c.b1)

/-- The `np.roots` eigenvalue solver, modeled as an uninterpreted function
from the cubic's coefficients `(c_3, c_2, c_1, c_0)` to a list of complex
roots, each a (re, im) pair of rationals.  The claims under study hold for
an arbitrary such function; the spec only requires it to be deterministic,
which a function is by construction. -/
abbrev CubicSolver := ℚ × ℚ × ℚ × ℚ → List (ℚ × ℚ)

/-- `solve_cubic(c_3, c_2, c_1, c_0)`: run the solver on the coefficients
and keep the roots with `np.isreal(root)` (imaginary part exactly 0) that
lie in `[0, 1]` (numpy orders complex scalars lexicographically, which for
a zero imaginary part is the real order on the real parts). -/
def solveCubic (rootsOf : CubicSolver) (cs : ℚ × ℚ × ℚ × ℚ) : List ℚ :=
  ((rootsOf cs).filter (fun r => decide (r.2 = 0 ∧ 0 ≤ r.1 ∧ r.1 ≤ 1))).map Prod.fst

/-- The candidate scan of `inv_proj`: `t_hat = None; min_dist = inf;` then
`for root in roots: if dist < min_dist: ...`.  The accumulator `none`
represents the initial `(None, inf)` state, which any first candidate
beats. -/
def minLoopStep (f : ℚ → ℚ) (acc : Option (ℚ × ℚ)) (r : ℚ) : Option (ℚ × ℚ) :=
  match acc with
  | none => some (r, f r)
  | some td => if f r < td.2 then some (r, f r) else some td

/-- The whole candidate loop of `inv_proj` as a fold of `minLoopStep`. -/
def minLoop (f : ℚ → ℚ) (l : List ℚ) : Option (ℚ × ℚ) :=
  l.foldl (minLoopStep f) none

/-- `inv_proj(point, coeff)`: assemble the cubic coefficients, solve, and
minimize the SQUARED distance (the source computes
`dist = (x - x_hat)**2 + (y - y_hat)**2`, no square root) over the in-range
real roots extended with the boundary candidates `[0.0, 1.0]`, returning
the winning parameter and the curve point there.  `none` models the
(unreachable) `t_hat = None` fall-through. -/
def invProj (rootsOf : CubicSolver) (p : Q2) (c : Coeff) : Option (ℚ × Q2) :=
  (minLoop (fun t => sqDist p (curveAt c t))
      (solveCubic rootsOf (cubicCoeffs p c) ++ [0, 1])).map
    (fun td => (td.1, curveAt c td.1))

/-- Squared trajectory-attraction distance
`get_dis_p2p(goal, point_hat)**2` with `point_hat` the `inv_proj`
projection of the goal on the fitted curve, or 0 when
`mapping['quadratic_path'] is None`.  The inner `none` branch is
unreachable (`invProj_isSome` below). -/
def trajAttractSq (rootsOf : CubicSolver) (g : Q2) (quad : Option Coeff) : ℚ :=
  match quad with
  | none => 0
  | some c =>
    match invProj rootsOf g c with
    | some tp => sqDist g tp.2
    | none => 0

/-- `get_dense_goal_targets(dense_goals, mapping, T, K1, K2, thres)` with
`gt = mapping['labels'][-1]`.  `goal_dist <= thres` is compared on squares
(`thres` is nonnegative at every call site, default 15.0), and the target
formula itself only uses the squares `goal_dist**2` and `traj_dist**2`,
which are exact rationals. -/
def getDenseGoalTargets (rootsOf : CubicSolver) (goals : List Q2) (gt : Q2)
    (quad : Option Coeff) (T K1 K2 thres : ℚ) : List ℚ :=
  goals.map (fun g =>
    if sqDist g gt ≤ thres ^ 2 then
      max (-(1 / 2) * K1 * sqDist g gt - (1 / 2) * K2 * trajAttractSq rootsOf g quad)
          (-(10 ^ 9)) / T
    else -(10 ^ 9) / T)

/-- The combined distance `goal_dist + traj_dist` tested against `eps` by
`get_sse_prep`: the sum of two Euclidean square roots, taken over ℝ. -/
noncomputable def sseDist (rootsOf : CubicSolver) (g gt : Q2) (quad : Option Coeff) : ℝ :=
  Real.sqrt ((sqDist g gt : ℚ) : ℝ) +
    match quad with
    | none => 0
    | some c =>
      match invProj rootsOf g c with
      | some tp => Real.sqrt ((sqDist g tp.2 : ℚ) : ℝ)
      | none => 0

open Classical in
/-- One iteration of the most-offensive-goal scan of `get_sse_prep`.  The
accumulator is the running `(mo_idx, mo_score)` pair, `none` standing for
the initial `(None, inf)` state; `score < min(mo_score, m)` is
`score < m` while the accumulator is empty. -/
noncomputable def ssePrepStep (rootsOf : CubicSolver) (scores : List ℚ) (gt : Q2)
    (quad : Option Coeff) (m eps : ℚ)
    (acc : Option (ℕ × ℚ)) (ig : ℕ × Q2) : Option (ℕ × ℚ) :=
  let score := scores.getD ig.1 0
  let pass : Bool :=
    match acc with
    | none => decide (score < m)
    | some p => decide (score < min p.2 m)
  if pass then
    if (eps : ℝ) ≤ sseDist rootsOf ig.2 gt quad then some (ig.1, score) else acc
  else acc

/-- `get_sse_prep(dense_goals, dense_goal_scores, mapping, m, eps)`:
the index of the goal nearest the ground truth (`argmin` over distances =
`argmin` over squared distances), and the index of the "most offensive"
goal found by folding `ssePrepStep` over the enumerated goals. -/
noncomputable def getSsePrep (rootsOf : CubicSolver) (goals : List Q2) (scores : List ℚ)
    (gt : Q2) (quad : Option Coeff) (m eps : ℚ) : ℕ × Option ℕ :=
  (idxmin (goals.map (fun g => sqDist g gt)),
   (goals.enum.foldl (ssePrepStep rootsOf scores gt quad m eps)
     (none : Option (ℕ × ℚ))).map Prod.fst)

/-- `square_square_energy_loss_from_prep(dense_goal_scores,
target_energy_idx, mo_idx, m)`. -/
def sseLossFromPrep (scores : List ℚ) (tIdx : ℕ) (mo : Option ℕ) (m : ℚ) : ℚ :=
  let te := scores.getD tIdx 0
  match mo with
  | none => te ^ 2
  | some j =>
    let ms := scores.getD j 0
    if ms < m then te ^ 2 + (m - ms) ^ 2 else te ^ 2

/-- `square_square_energy_loss` = prep followed by the loss formula. -/
noncomputable def squareSquareEnergyLoss (rootsOf : CubicSolver) (goals : List Q2)
    (scores : List ℚ) (gt : Q2) (quad : Option Coeff) (m eps : ℚ) : ℚ :=
  let p := getSsePrep rootsOf goals scores gt quad m eps
  sseLossFromPrep scores p.1 p.2 m

/-- A Python number, remembering whether it is an `int` or a `float`:
`round(x, ndigits)` accepts an `int` ndigits but raises `TypeError` for a
`float` ndigits, which is what makes the dense-lattice default
`density = 1.0` significant. -/
inductive PyNum where
| int (z : ℤ)
| float (q : ℚ)
deriving DecidableEq

/-- The numeric value of a `PyNum`. -/
def PyNum.toRat : PyNum → ℚ
| .int z => (z : ℚ)
| .float q => q

/-- Python's `round(x)` to an integer: round half to even. -/
def roundHalfEven (x : ℚ) : ℤ :=
  let n := ⌊x⌋
  let r := x - (n : ℚ)
  if r < 1 / 2 then n
  else if 1 / 2 < r then n + 1
  else if n % 2 = 0 then n else n + 1

/-- Python's `round(x, ndigits)`: rounds to `ndigits` decimal places when
`ndigits` is an `int`; raises `TypeError` (here `none`) when `ndigits` is a
`float`, since `float` has no `__index__`. -/
def pyRoundTo (x : ℚ) : PyNum → Option ℚ
| .int d => some ((roundHalfEven (x * 10 ^ d) : ℚ) / 10 ^ d)
| .float _ => none

/-- `get_hash_point` of `get_points_remove_repeated`: the pair of rounded
coordinates. -/
def getHashPoint (d : PyNum) (p : Q2) : Option Q2 :=
  (pyRoundTo p.1 d).bind fun x => (pyRoundTo p.2 d).map fun y => (x, y)

/-- Dict-insertion loop of `get_points_remove_repeated`: keys keep their
first-insertion position (re-inserting an existing key does not move it),
and `list(grid.keys())` returns them in that order. -/
def dedupGo (d : PyNum) : List Q2 → List Q2 → Option (List Q2)
| [], acc => some acc
| p :: rest, acc =>
  match getHashPoint d p with
  | none => none
  | some k => dedupGo d rest (if k ∈ acc then acc else acc ++ [k])

/-- `get_points_remove_repeated(points, decimal)`. -/
def getPointsRemoveRepeated (pts : List Q2) (d : PyNum) : Option (List Q2) :=
  dedupGo d pts []

/-- Insert a grid key, keeping first-insertion order (dict semantics). -/
def insertKey (acc : List Q2) (k : Q2) : List Q2 :=
  if k ∈ acc then acc else acc ++ [k]

/-- The fixed `eps = 1e-5` of `get_neighbour_points_new`. -/
def latticeEps : ℚ := 1 / 10 ^ 5

/-- The offsets visited by `i = x - dis; while i < x + dis + eps: i += step`:
the values `-dis + k * step` for `k * step < 2 * dis + eps`; for step > 0
their count is `⌈(2 * dis + eps) / step⌉`. -/
def gridOffsets (dis : ℤ) (step : ℚ) : List ℚ :=
  (List.range (⌈(2 * (dis : ℚ) + latticeEps) / step⌉).toNat).map
    (fun k => -(dis : ℚ) + (k : ℚ) * step)

/-- `get_neighbour_points_new(points, neighbour_dis, density)`: build the
dense grid around each integer-rounded in-range input point, then
deduplicate with `get_points_remove_repeated(points, density)` — passing
`density` itself (default the FLOAT `1.0`) as the `round` ndigits. -/
def getNeighbourPointsNew (pts : List Q2) (dis : ℤ) (density : PyNum) :
    Option (List Q2) :=
  let offs := gridOffsets dis density.toRat
  let grid := pts.foldl
    (fun acc p =>
      let x := roundHalfEven p.1
      let y := roundHalfEven p.2
      if -100 ≤ x ∧ x ≤ 100 ∧ -100 ≤ y ∧ y ≤ 100 then
        offs.foldl
          (fun acc2 dx =>
            offs.foldl (fun acc3 dy => insertKey acc3 ((x : ℚ) + dx, (y : ℚ) + dy)) acc2)
          acc
      else acc)
    []
  getPointsRemoveRepeated grid density

/-- `get_unit_vector(point_a, point_b)`: the normalized direction a → b;
`1 / math.sqrt(0)` raises `ZeroDivisionError`, modeled as `none`.  The
zero test is exact over ℚ (`dx^2 + dy^2 = 0 ↔ a = b`). -/
noncomputable def getUnitVector (a b : Q2) : Option (ℝ × ℝ) :=
  let dx : ℚ := b.1 - a.1
  let dy : ℚ := b.2 - a.2
  if dx ^ 2 + dy ^ 2 = 0 then none
  else
    let scale : ℝ := 1 / Real.sqrt (((dx ^ 2 + dy ^ 2 : ℚ) : ℝ))
    some ((dx : ℝ) * scale, (dy : ℝ) * scale)

/-- Indices selected by `np.where(dist[:, k] <= R)[0]` in
`get_optimal_targets_home_FDE` (squared comparison). -/
def fdeIdx (goals : List Q2) (c : Q2) (R : ℚ) : List ℕ :=
  (List.range goals.length).filter
    (fun i => decide (sqDist (goals.getD i (0, 0)) c ≤ R ^ 2))

/-- Minimum of a list of rationals (`np.min`; the centroid list is never
empty at the call site). -/
def minQ : List ℚ → ℚ
| [] => 0
| a :: l => l.foldl min a

/-- `m[i]`: the distance from goal `i` to its closest centroid; the minimum
of the Euclidean distances equals the square root of the minimum of their
squares. -/
noncomputable def fdeM (goals centroids : List Q2) (i : ℕ) : ℝ :=
  Real.sqrt ((minQ (centroids.map (fun c => sqDist (goals.getD i (0, 0)) c)) : ℚ) : ℝ)

/-- The weight `scores[i] * (m[i] + 1e-7) / (dist[i, k]**2 + 1e-7)` of goal
`i` in the update of centroid `k`. -/
noncomputable def fdeWeight (goals : List Q2) (scores : List ℚ) (centroids : List Q2)
    (k i : ℕ) : ℝ :=
  ((scores.getD i 0 : ℚ) : ℝ) * (fdeM goals centroids i + (1 : ℝ) / 10 ^ 7) /
    (((sqDist (goals.getD i (0, 0)) (centroids.getD k (0, 0)) : ℚ) : ℝ) + (1 : ℝ) / 10 ^ 7)

/-- `np.sum(weights)`: the divisor of the centroid update. -/
noncomputable def fdeWeightSum (goals : List Q2) (scores : List ℚ) (centroids : List Q2)
    (k : ℕ) (R : ℚ) : ℝ :=
  ((fdeIdx goals (centroids.getD k (0, 0)) R).map (fdeWeight goals scores centroids k)).sum

/-- The x-coordinate of `np.sum(goals[idx] * weights[:, None], axis=0)`. -/
noncomputable def fdeNumerX (goals : List Q2) (scores : List ℚ) (centroids : List Q2)
    (k : ℕ) (R : ℚ) : ℝ :=
  ((fdeIdx goals (centroids.getD k (0, 0)) R).map
    (fun i => ((goals.getD i (0, 0)).1 : ℝ) * fdeWeight goals scores centroids k i)).sum

/-- The y-coordinate of `np.sum(goals[idx] * weights[:, None], axis=0)`. -/
noncomputable def fdeNumerY (goals : List Q2) (scores : List ℚ) (centroids : List Q2)
    (k : ℕ) (R : ℚ) : ℝ :=
  ((fdeIdx goals (centroids.getD k (0, 0)) R).map
    (fun i => ((goals.getD i (0, 0)).2 : ℝ) * fdeWeight goals scores centroids k i)).sum

/-- One centroid update
`centroids[k] = np.sum(goals[idx] * weights[:, None], axis=0) / np.sum(weights)`
of `get_optimal_targets_home_FDE` — the division by `fdeWeightSum` is
unguarded in the source. -/
noncomputable def fdeCentroidUpdate (goals : List Q2) (scores : List ℚ)
    (centroids : List Q2) (k : ℕ) (R : ℚ) : ℝ × ℝ :=
  (fdeNumerX goals scores centroids k R / fdeWeightSum goals scores centroids k R,
   fdeNumerY goals scores centroids k R / fdeWeightSum goals scores centroids k R)

/-!  Theorems.  First the two equivalences justifying that the dot-product
tests of the splice step, stated by the source on normalized (unit) vectors,
are exactly the rational tests used in the embedding; then helper lemmas;
then one theorem per claim (with witnesses and counterexamples). -/

/-- For positive `A`, `|d| / sqrt A ≤ ε ↔ d^2 ≤ ε^2 * A` (ε ≥ 0): the
absolute-value tolerance test on a normalized dot product equals the squared
test on the unnormalized one. -/
theorem abs_div_sqrt_le_iff (d A ε : ℝ) (hA : 0 < A) (hε : 0 ≤ ε) :
    |d| / Real.sqrt A ≤ ε ↔ d ^ 2 ≤ ε ^ 2 * A := by
  have hs : 0 < Real.sqrt A := Real.sqrt_pos.mpr hA
  have hsq : Real.sqrt A ^ 2 = A := Real.sq_sqrt hA.le
  rw [div_le_iff₀ hs]
  constructor
  · intro h
    nlinarith [abs_nonneg d, sq_abs d, mul_nonneg hε hs.le]
  · intro h
    nlinarith [abs_nonneg d, sq_abs d, mul_nonneg hε hs.le,
      sq_nonneg (|d| - ε * Real.sqrt A), sq_nonneg (|d| + ε * Real.sqrt A)]

/-- Under the sign condition `ds * de ≤ 0`, comparing the normalized dot
products `ds / sqrt A < de / sqrt B` (A, B positive products of squared
norms) is equivalent to `ds < 0 ∨ 0 < de`, the branch test used by
`spliceInterior`. -/
theorem div_sqrt_lt_div_sqrt_iff (ds de A B : ℝ) (hA : 0 < A) (hB : 0 < B)
    (h : ds * de ≤ 0) :
    ds / Real.sqrt A < de / Real.sqrt B ↔ (ds < 0 ∨ 0 < de) := by
  have hsA : 0 < Real.sqrt A := Real.sqrt_pos.mpr hA
  have hsB : 0 < Real.sqrt B := Real.sqrt_pos.mpr hB
  rcases lt_trichotomy ds 0 with hd | hd | hd
  · have hde : 0 ≤ de := by nlinarith
    constructor
    · intro _; exact Or.inl hd
    · intro _
      calc ds / Real.sqrt A < 0 := div_neg_of_neg_of_pos hd hsA
      _ ≤ de / Real.sqrt B := div_nonneg hde hsB.le
  · subst hd
    simp only [zero_div, lt_irrefl, false_or]
    rw [lt_div_iff₀ hsB]
    constructor
    · intro hlt; nlinarith
    · intro hlt; nlinarith
  · have hde : de ≤ 0 := by nlinarith
    constructor
    · intro hlt
      have h1 : de / Real.sqrt B ≤ 0 := div_nonpos_of_nonpos_of_nonneg hde hsB.le
      have h2 : 0 < ds / Real.sqrt A := div_pos hd hsA
      linarith
    · rintro (h1 | h1)
      · exact absurd hd (not_lt.mpr h1.le)
      · exact absurd hde (not_le.mpr h1)

/-- The fold of `minLoopStep` started from a populated accumulator keeps the
invariant: the result is a populated pair `(t', f t')` whose value is the
minimum over the accumulator and the scanned elements, and whose key was the
accumulator's or one of the scanned elements. -/
theorem minLoop_go (f : ℚ → ℚ) (l : List ℚ) :
    ∀ t : ℚ, ∃ t', l.foldl (minLoopStep f) (some (t, f t)) = some (t', f t') ∧
      (t' = t ∨ t' ∈ l) ∧ f t' ≤ f t ∧ ∀ u ∈ l, f t' ≤ f u := by
  induction l with
  | nil => intro t; exact ⟨t, rfl, Or.inl rfl, le_refl _, by simp⟩
  | cons a l ih =>
    intro t
    simp only [List.foldl_cons]
    by_cases h : f a < f t
    · have hstep : minLoopStep f (some (t, f t)) a = some (a, f a) := by
        simp [minLoopStep, h]
      rw [hstep]
      obtain ⟨t', h1, h2, h3, h4⟩ := ih a
      refine ⟨t', h1, ?_, ?_, ?_⟩
      · rcases h2 with h2 | h2
        · exact Or.inr (h2 ▸ List.mem_cons_self a l)
        · exact Or.inr (List.mem_cons_of_mem a h2)
      · exact h3.trans h.le
      · intro u hu
        rcases List.mem_cons.mp hu with hu | hu
        · exact hu ▸ h3
        · exact h4 u hu
    · have hstep : minLoopStep f (some (t, f t)) a = some (t, f t) := by
        simp [minLoopStep, h]
      rw [hstep]
      obtain ⟨t', h1, h2, h3, h4⟩ := ih t
      refine ⟨t', h1, ?_, h3, ?_⟩
      · rcases h2 with h2 | h2
        · exact Or.inl h2
        · exact Or.inr (List.mem_cons_of_mem a h2)
      · intro u hu
        rcases List.mem_cons.mp hu with hu | hu
        · exact hu ▸ (h3.trans (not_lt.mp h))
        · exact h4 u hu

/-- On a nonempty candidate list the scan returns a member achieving the
minimum value of `f`. -/
theorem minLoop_spec (f : ℚ → ℚ) (l : List ℚ) (h : l ≠ []) :
    ∃ t, minLoop f l = some (t, f t) ∧ t ∈ l ∧ ∀ u ∈ l, f t ≤ f u := by
  match l, h with
  | a :: l, _ =>
    have hstep : minLoopStep f none a = some (a, f a) := rfl
    obtain ⟨t', h1, h2, h3, h4⟩ := minLoop_go f l a
    refine ⟨t', ?_, ?_, ?_⟩
    · rw [minLoop, List.foldl_cons, hstep, h1]
    · rcases h2 with h2 | h2
      · exact h2 ▸ List.mem_cons_self a l
      · exact List.mem_cons_of_mem a h2
    · intro u hu
      rcases List.mem_cons.mp hu with hu | hu
      · exact hu ▸ h3
      · exact h4 u hu

/-- The candidate list of `inv_proj` always contains the boundary values, so
the scan never returns `None`. -/
theorem invProj_isSome (rootsOf : CubicSolver) (p : Q2) (c : Coeff) :
    (invProj rootsOf p c).isSome = true := by
  obtain ⟨t, h1, -, -⟩ :=
    minLoop_spec (fun t => sqDist p (curveAt c t))
      (solveCubic rootsOf (cubicCoeffs p c) ++ [0, 1]) (by simp)
  rw [invProj, h1]
  rfl

/-- Membership in the filtered root list forces the `[0, 1]` bounds. -/
theorem mem_solveCubic_bounds (rootsOf : CubicSolver) (cs : ℚ × ℚ × ℚ × ℚ) (t : ℚ)
    (h : t ∈ solveCubic rootsOf cs) : 0 ≤ t ∧ t ≤ 1 := by
  rw [solveCubic] at h
  obtain ⟨r, hr, rfl⟩ := List.mem_map.mp h
  have := (List.mem_filter.mp hr).2
  have := of_decide_eq_true this
  exact ⟨this.2.1, this.2.2⟩

/-- C1: for every quadratic curve, every query point and every behaviour of
the cubic-root solver, `inv_proj` returns a parameter `t ∈ [0, 1]` that
minimizes the squared Euclidean distance to the curve over the candidate
set of in-range real roots of the assembled cubic together with the
boundary values 0 and 1, paired with the curve point at that `t`; in
particular the result exists (is not `None`) even when the solver
contributes no in-range real root. -/
theorem c1_inv_proj (rootsOf : CubicSolver) (p : Q2) (c : Coeff) :
    ∃ t : ℚ, invProj rootsOf p c = some (t, curveAt c t) ∧ 0 ≤ t ∧ t ≤ 1 ∧
      ∀ u ∈ solveCubic rootsOf (cubicCoeffs p c) ++ [0, 1],
        sqDist p (curveAt c t) ≤ sqDist p (curveAt c u) := by
  obtain ⟨t, h1, h2, h3⟩ :=
    minLoop_spec (fun t => sqDist p (curveAt c t))
      (solveCubic rootsOf (cubicCoeffs p c) ++ [0, 1]) (by simp)
  refine ⟨t, ?_, ?_, ?_, h3⟩
  · rw [invProj, h1]; rfl
  · rcases List.mem_append.mp h2 with h | h
    · exact (mem_solveCubic_bounds rootsOf _ t h).1
    · have h' : t = 0 ∨ t = 1 := by simpa using h
      rcases h' with rfl | rfl <;> norm_num
  · rcases List.mem_append.mp h2 with h | h
    · exact (mem_solveCubic_bounds rootsOf _ t h).2
    · have h' : t = 0 ∨ t = 1 := by simpa using h
      rcases h' with rfl | rfl <;> norm_num

/-- C2: a concrete run of the radius computation of
`construct_reference_path`.  Labels (100,0), (60,0), (30,0), (0,0) with
horizon 4 and reference path (0,0)–(50,0) targeted at (0,0) produce the
squared radius 900, i.e. R = 30 > 15: the source computes
`max(15, d_half)` where its own comment (`3 <= R <= 15`) and the spec
require `min(15, d_half)`, so the claimed ceiling of 15 does not hold. -/
theorem c2_radius_exceeds_15 :
    crpRadius [(100, 0), (60, 0), (30, 0), (0, 0)] [(0, 0), (50, 0)] (0, 0) 4 =
      some 900 ∧ (225 : ℚ) < 900 := by
  constructor
  · with_unfolding_all decide
  · norm_num

/-- Length of one densification-pass body. -/
theorem densBody_length : ∀ l : List Q2, (densBody l).length = 2 * l.length - 2
| [] => by simp [densBody]
| [p] => by simp [densBody]
| p :: q :: rest => by
  have ih := densBody_length (q :: rest)
  simp only [densBody, List.length_cons] at ih ⊢
  omega

/-- A densification pass on a nonempty path succeeds and maps length n to
2n - 1. -/
theorem densifyStep_length (l : List Q2) (h : l ≠ []) :
    ∃ l2, densifyStep l = some l2 ∧ l2.length = 2 * l.length - 1 := by
  match l, h with
  | p :: rest, _ =>
    refine ⟨_, rfl, ?_⟩
    have hb := densBody_length (p :: rest)
    rw [List.length_append, hb]
    simp only [List.length_cons, List.length_nil]
    omega

/-- On paths of length ≥ 2 the densification loop exits (within the fuel
budget `9 ≤ length + fuel`) with a path of length ≥ 9. -/
theorem densifyIter_done :
    ∀ (fuel : ℕ) (l : List Q2), 2 ≤ l.length → 9 ≤ l.length + fuel →
      ∃ l2, densifyIter fuel l = .done l2 ∧ 9 ≤ l2.length := by
  intro fuel
  induction fuel with
  | zero =>
    intro l h2 h9
    refine ⟨l, ?_, by omega⟩
    rw [densifyIter, if_pos (by omega)]
  | succ fuel ih =>
    intro l h2 h9
    by_cases hlen : 9 ≤ l.length
    · exact ⟨l, by rw [densifyIter, if_pos hlen], hlen⟩
    · have hne : l ≠ [] := by
        intro h; rw [h] at h2; simp at h2
      obtain ⟨l2, hstep, hlen2⟩ := densifyStep_length l hne
      obtain ⟨l3, hrec, h93⟩ := ih l2 (by omega) (by omega)
      exact ⟨l3, by rw [densifyIter, if_neg hlen, hstep]; exact hrec, h93⟩

/-- The auxiliary argmin scan returns the incoming best index or an index of
one of the scanned positions. -/
theorem idxminAux_cases :
    ∀ (l : List ℚ) (i best : ℕ) (bv : ℚ),
      idxminAux l i best bv = best ∨
        (i ≤ idxminAux l i best bv ∧ idxminAux l i best bv < i + l.length)
| [], _, _, _ => Or.inl rfl
| v :: rest, i, best, bv => by
  simp only [idxminAux]
  by_cases h : v < bv
  · rw [if_pos h]
    rcases idxminAux_cases rest (i + 1) i v with h1 | h1
    · right; simp only [h1, List.length_cons]; omega
    · right; simp only [List.length_cons]; omega
  · rw [if_neg h]
    rcases idxminAux_cases rest (i + 1) best bv with h1 | h1
    · exact Or.inl h1
    · right; simp only [List.length_cons]; omega

/-- `np.argmin` over a nonempty list returns an in-range index. -/
theorem idxmin_lt_length (l : List ℚ) (h : l ≠ []) : idxmin l < l.length := by
  match l, h with
  | v :: rest, _ =>
    rw [idxmin]
    rcases idxminAux_cases rest 1 0 v with h1 | h1
    · simp [h1]
    · simp only [List.length_cons]; omega

/-- `getD` at an in-range index is the corresponding `get`. -/
theorem getD_eq_get (l : List Q2) (i : ℕ) (d : Q2) (h : i < l.length) :
    l.getD i d = l.get ⟨i, h⟩ := by
  rw [List.getD_eq_get?, List.get?_eq_get h]
  rfl

/-- The rigid shift places the closest path point exactly on the target, so
the target itself is an element of the shifted path. -/
theorem shiftedPath_closest_mem (path : List Q2) (label : Q2) (h : path ≠ []) :
    label ∈ shiftedPath path label := by
  have hm : (path.map (fun p => sqDist p label)) ≠ [] := by
    simpa using h
  have hc : pathClosestIdx path label < path.length := by
    have h2 := idxmin_lt_length _ hm
    simpa [pathClosestIdx] using h2
  have hcm : path.getD (pathClosestIdx path label) (0, 0) ∈ path := by
    rw [getD_eq_get path _ _ hc]
    exact List.get_mem _ _ _
  have hval :
      sub2 (path.getD (pathClosestIdx path label) (0, 0))
        (sub2 (path.getD (pathClosestIdx path label) (0, 0)) label) = label := by
    rw [Prod.ext_iff]
    simp only [sub2]
    constructor <;> ring
  have hmem := List.mem_map_of_mem
    (fun p => sub2 p (sub2 (path.getD (pathClosestIdx path label) (0, 0)) label)) hcm
  have hmem2 :
      sub2 (path.getD (pathClosestIdx path label) (0, 0))
        (sub2 (path.getD (pathClosestIdx path label) (0, 0)) label) ∈
        path.map (fun p => sub2 p (sub2 (path.getD (pathClosestIdx path label) (0, 0)) label)) :=
    hmem
  rw [hval] at hmem2
  simpa [shiftedPath] using hmem2

/-- `labels[-1]` exists on a nonempty list. -/
theorem pyGet_neg_one_isSome (l : List Q2) (h : l ≠ []) :
    (pyGet l (-1)).isSome = true := by
  have h1 : 1 ≤ l.length := List.length_pos.mpr h
  rw [pyGet, if_neg (by norm_num), if_pos (by simpa using h1)]
  rw [List.get?_eq_get (by omega)]
  rfl

/-- `labels[0]` exists on a nonempty list. -/
theorem pyGet_zero_isSome (l : List Q2) (h : l ≠ []) :
    (pyGet l 0).isSome = true := by
  have h1 : 1 ≤ l.length := List.length_pos.mpr h
  rw [pyGet, if_pos (by norm_num)]
  rw [Int.toNat_zero, List.get?_eq_get (by omega)]
  rfl

/-- When the three label accesses succeed, the radius computation returns a
squared radius, and that radius is at least the squared floor 9 (= 3²). -/
theorem radiusSq_isSome (labels shifted : List Q2) (cIdx : ℕ) (fut : ℕ)
    (hlab : labels ≠ [])
    (hhalf : (pyGet labels ((-(fut : ℤ)).fdiv 2)).isSome = true) :
    ∃ R, radiusSq labels shifted cIdx fut = some R ∧ 9 ≤ R := by
  obtain ⟨lastL, hlast⟩ := Option.isSome_iff_exists.mp (pyGet_neg_one_isSome labels hlab)
  obtain ⟨halfL, hhalfL⟩ := Option.isSome_iff_exists.mp hhalf
  obtain ⟨firstL, hfirst⟩ := Option.isSome_iff_exists.mp (pyGet_zero_isSome labels hlab)
  rw [radiusSq, hlast, hhalfL, hfirst]
  exact ⟨_, rfl, le_max_right _ 9⟩

/-- `labels.drop (labels.length - (1 + i))` (the Python tail slice
`labels[-1-i:]`) is nonempty whenever `labels` is. -/
theorem trajSeg_ne_nil (labels : List Q2) (i : ℕ) (h : labels ≠ []) :
    labels.drop (labels.length - (1 + i)) ≠ [] := by
  have h1 : 1 ≤ labels.length := List.length_pos.mpr h
  intro hnil
  rw [List.drop_eq_nil_iff_le] at hnil
  omega

/-- Every branch of the splice phase yields a nonempty path (given nonempty
labels and a nonempty filtered path). -/
theorem spliceStep_ne_nil (labels filtered : List Q2) (label : Q2) (Rsq : ℚ)
    (fut : ℕ) (hlab : labels ≠ []) (hf : filtered ≠ []) :
    spliceStep labels filtered label Rsq fut ≠ [] := by
  have htraj := trajSeg_ne_nil labels
    (trajLoop labels (filtered.getD (closestIdx2 filtered label) (0, 0)) Rsq - 1) hlab
  rw [spliceStep]
  cases htv : trajVec labels fut with
  | none => simpa using hf
  | some vt =>
    simp only []
    split_ifs with h1 h2 h3 h4 h5
    · simpa using hf
    · simpa using htraj
    · simp only [ne_eq, List.append_eq_nil]
      intro h
      exact htraj h.1
    · simpa using htraj
    · simp only [ne_eq, List.append_eq_nil]
      intro h
      exact htraj (List.reverse_eq_nil_iff.mp h.2)
    · rw [spliceInterior]
      split_ifs with h6 h7
      · simp only [ne_eq, List.append_eq_nil]
        intro h
        exact htraj (List.reverse_eq_nil_iff.mp h.2)
      · simp only [ne_eq, List.append_eq_nil]
        intro h
        exact htraj h.1
      · simpa using hf

/-- C3 counterexample: with reference path (0,0)–(1000,0) (densified to 9
points 125 apart), labels walking (5,0) → (0,0) and horizon 6, the radius
works out to R = 5, the filter keeps only the single point (0,0), both
splice distances are 0 (the path has one point), and the function returns a
polyline of length 1 — not ≥ 3 as the claim states. -/
theorem c3_counterexample :
    constructReferencePath [(5, 0), (4, 0), (3, 0), (2, 0), (1, 0), (0, 0)]
        [(0, 0), (1000, 0)] (0, 0) 6 = some [(0, 0)] ∧
      ([((0 : ℚ), (0 : ℚ))] : List Q2).length < 3 := by
  constructor
  · with_unfolding_all decide
  · decide

/-- C3 amended: for every valid input (reference polyline of length ≥ 2,
nonempty label trajectory whose `labels[-future_frame_num//2]` access is in
range), `construct_reference_path` returns (does not raise) and the returned
polyline has length ≥ 1 — the filter always keeps the closest point, which
the shift has placed exactly on the target, and every splice branch
preserves nonemptiness; the stronger bound ≥ 3 of the original claim fails
(see the counterexample). -/
theorem c3_amended (labels refPath : List Q2) (label : Q2) (fut : ℕ)
    (h2 : 2 ≤ refPath.length) (hlab : labels ≠ [])
    (hhalf : (pyGet labels ((-(fut : ℤ)).fdiv 2)).isSome = true) :
    constructReferencePath labels refPath label fut ≠ none ∧
      1 ≤ ((constructReferencePath labels refPath label fut).getD []).length := by
  obtain ⟨path, hdone, h9⟩ := densifyIter_done 9 refPath h2 (by omega)
  have hpath : path ≠ [] := by
    intro hnil; rw [hnil] at h9; simp at h9
  obtain ⟨R, hR, hR9⟩ := radiusSq_isSome labels (shiftedPath path label)
    (pathClosestIdx path label) fut hlab hhalf
  have hmem : label ∈ (shiftedPath path label).filter
      (fun p => decide (sqDist p label ≤ R)) := by
    rw [List.mem_filter]
    refine ⟨shiftedPath_closest_mem path label hpath, ?_⟩
    rw [decide_eq_true_eq]
    have hz : sqDist label label = 0 := by simp [sqDist]
    rw [hz]; linarith
  have hfne : (shiftedPath path label).filter (fun p => decide (sqDist p label ≤ R)) ≠ [] :=
    List.ne_nil_of_mem hmem
  have hcrp : constructReferencePath labels refPath label fut =
      some (spliceStep labels
        ((shiftedPath path label).filter (fun p => decide (sqDist p label ≤ R)))
        label R fut) := by
    rw [constructReferencePath, hdone]
    simp only [crpCore]
    rw [hR]
    simp only [if_neg hfne]
  constructor
  · rw [hcrp]; exact Option.some_ne_none _
  · rw [hcrp]
    simp only [Option.getD_some]
    exact List.length_pos.mpr (spliceStep_ne_nil _ _ _ _ _ hlab hfne)

/-- Witness for `c3_amended` at a concrete input. -/
theorem c3_amended_witness :
    constructReferencePath [(9, 0), (6, 0), (3, 0), (0, 0)] [(0, -4), (0, 0), (4, 0)]
        (0, 0) 4 ≠ none ∧
      1 ≤ ((constructReferencePath [(9, 0), (6, 0), (3, 0), (0, 0)]
        [(0, -4), (0, 0), (4, 0)] (0, 0) 4).getD []).length :=
  c3_amended [(9, 0), (6, 0), (3, 0), (0, 0)] [(0, -4), (0, 0), (4, 0)] (0, 0) 4
    (by decide) (by decide) (by decide)

/-- C4 counterexample: an interior splice (both endpoint distances 16,
far above the 1e-14 squared tolerance) in which the trajectory direction is
exactly perpendicular to the start direction — the start dot product is 0,
hence "negligibly small" and not of strict sign — yet the path IS modified:
the source only requires that NOT BOTH dot products be tiny
(`not (abs(start_hypo) <= 1e-7 and abs(end_hypo) <= 1e-7)`), while the claim
requires that NEITHER be tiny. -/
theorem c4_counterexample :
    eps2 < startDistSq
        [(0, -4), (0, -3), (0, -2), (0, -1), (0, 0), (1, 0), (2, 0), (3, 0), (4, 0)] (0, 0) ∧
      eps2 < endDistSq
        [(0, -4), (0, -3), (0, -2), (0, -1), (0, 0), (1, 0), (2, 0), (3, 0), (4, 0)] (0, 0) ∧
      trajVec [(9, 0), (6, 0), (3, 0), (0, 0)] 4 = some (3, 0) ∧
      dot2 (3, 0) (vsOf
        [(0, -4), (0, -3), (0, -2), (0, -1), (0, 0), (1, 0), (2, 0), (3, 0), (4, 0)] (0, 0)) = 0 ∧
      spliceStep [(9, 0), (6, 0), (3, 0), (0, 0)]
          [(0, -4), (0, -3), (0, -2), (0, -1), (0, 0), (1, 0), (2, 0), (3, 0), (4, 0)]
          (0, 0) 16 4 ≠
        [(0, -4), (0, -3), (0, -2), (0, -1), (0, 0), (1, 0), (2, 0), (3, 0), (4, 0)] := by
  refine ⟨?_, ?_, ?_, ?_, ?_⟩ <;> with_unfolding_all decide

/-- C4 amended: in the interior case (both endpoint distances above the
1e-7 tolerance, trajectory direction available) the path is modified only if
the product of the two unnormalized dot products is ≤ 0 AND NOT BOTH are
negligibly small (each |dot| ≤ 1e-7 on unit vectors, i.e.
dot² ≤ 1e-14·|v_t|²·|v_dir|²); when that guard fails the filtered path is
returned unmodified.  (The original claim required that neither dot product
be small and that the signs be strictly opposite; the code's guard is
weaker, see the counterexample.) -/
theorem c4_amended (labels filtered : List Q2) (label : Q2) (Rsq : ℚ) (fut : ℕ)
    (vt : Q2) (hvt : trajVec labels fut = some vt)
    (hs : eps2 < startDistSq filtered label)
    (he : eps2 < endDistSq filtered label)
    (hcond : spliceCondB vt (vsOf filtered label) (veOf filtered label) = false) :
    spliceStep labels filtered label Rsq fut = filtered := by
  rw [spliceStep, hvt]
  simp only []
  rw [if_neg (fun hand => absurd hand.1 (not_le.mpr hs))]
  rw [if_neg (not_le.mpr hs), if_neg (not_le.mpr he)]
  rw [spliceInterior, hcond]
  rfl

/-- Witness for `c4_amended` at a concrete input (strictly positive dot
products on both sides, so the guard fails and the path is unmodified). -/
theorem c4_amended_witness :
    spliceStep [(3, -3), (2, -2), (1, -1), (0, 0)]
        [(0, -4), (0, -3), (0, -2), (0, -1), (0, 0), (1, 0), (2, 0), (3, 0), (4, 0)]
        (0, 0) 16 4 =
      [(0, -4), (0, -3), (0, -2), (0, -1), (0, 0), (1, 0), (2, 0), (3, 0), (4, 0)] :=
  c4_amended [(3, -3), (2, -2), (1, -1), (0, 0)]
    [(0, -4), (0, -3), (0, -2), (0, -1), (0, 0), (1, 0), (2, 0), (3, 0), (4, 0)]
    (0, 0) 16 4 (1, -1) (by with_unfolding_all decide) (by with_unfolding_all decide)
    (by with_unfolding_all decide) (by with_unfolding_all decide)

/-- `getD` commutes with `map` at in-range indices. -/
theorem getD_map_of_lt (f : Q2 → ℚ) :
    ∀ (l : List Q2) (i : ℕ), i < l.length → (l.map f).getD i 0 = f (l.getD i (0, 0))
| [], i, h => absurd h (by simp)
| x :: xs, 0, _ => rfl
| x :: xs, i + 1, h => getD_map_of_lt f xs i (by simpa using h)

/-- C5: with the default parameters (T = 50, K1 = 1, K2 = 2, thres = 15),
every lattice goal with `goal_dist <= 15` of the ground-truth goal is
assigned `max(-0.5*K1*goal_dist^2 - 0.5*K2*traj_dist^2, -1e9) / T`, where
`traj_dist` is the distance from the goal to its `inv_proj` projection on
the fitted quadratic curve and 0 when no curve was fit; every farther goal
is assigned exactly `-1e9 / T`. -/
theorem c5_dense_goal_targets (rootsOf : CubicSolver) (goals : List Q2) (gt : Q2)
    (quad : Option Coeff) (i : ℕ) (hi : i < goals.length) :
    (getDenseGoalTargets rootsOf goals gt quad 50 1 2 15).getD i 0 =
      if sqDist (goals.getD i (0, 0)) gt ≤ 15 ^ 2 then
        max (-(1 / 2) * 1 * sqDist (goals.getD i (0, 0)) gt -
            (1 / 2) * 2 *
              (match quad with
               | none => 0
               | some c =>
                 match invProj rootsOf (goals.getD i (0, 0)) c with
                 | some tp => sqDist (goals.getD i (0, 0)) tp.2
                 | none => 0))
          (-(10 ^ 9)) / 50
      else -(10 ^ 9) / 50 := by
  rw [getDenseGoalTargets, getD_map_of_lt _ goals i hi]
  cases quad with
  | none => rfl
  | some c =>
    cases hip : invProj rootsOf (goals.getD i (0, 0)) c with
    | none => simp only [trajAttractSq, hip]
    | some tp => simp only [trajAttractSq, hip]

/-- Witness for `c5_dense_goal_targets`: the goal sitting exactly on the
ground truth, with no fitted curve, receives target `max(0, -1e9)/50 = 0`. -/
theorem c5_witness :
    (getDenseGoalTargets (fun _ => []) [((0 : ℚ), (0 : ℚ))] (0, 0) none 50 1 2 15).getD
      0 0 = 0 := by
  have h := c5_dense_goal_targets (fun _ => []) [((0 : ℚ), (0 : ℚ))] (0, 0) none 0
    (by decide)
  rw [h]
  with_unfolding_all decide

/-- `getD` of `set` at the written index. -/
theorem getD_set_self : ∀ (l : List ℚ) (i : ℕ) (v : ℚ), i < l.length →
    (l.set i v).getD i 0 = v
| [], i, _, h => absurd h (by simp)
| x :: xs, 0, _, _ => rfl
| x :: xs, i + 1, v, h => getD_set_self xs i v (by simpa using h)

/-- `getD` of `set` at a different index. -/
theorem getD_set_ne : ∀ (l : List ℚ) (i j : ℕ) (v : ℚ), i ≠ j →
    (l.set i v).getD j 0 = l.getD j 0
| [], _, _, _, _ => rfl
| _ :: _, 0, 0, _, h => absurd rfl h
| _ :: _, 0, _ + 1, _, _ => rfl
| _ :: _, _ + 1, 0, _, _ => rfl
| _ :: xs, i + 1, j + 1, v, h => getD_set_ne xs i j v (fun he => h (by rw [he]))

/-- C6 counterexample: with a single goal placed on the ground truth (so no
offensive index exists) and no fitted curve, raising the target score from
-1 to 0 strictly DECREASES the square-square loss (1 to 0): the loss is the
SQUARE of the target score, so it is not strictly increasing in the target
score — it decreases on negative scores. -/
theorem c6_counterexample :
    squareSquareEnergyLoss (fun _ => []) [((0 : ℚ), (0 : ℚ))] [-1] (0, 0) none 10 10 = 1 ∧
      squareSquareEnergyLoss (fun _ => []) [((0 : ℚ), (0 : ℚ))] [0] (0, 0) none 10 10 = 0 := by
  have hdist : ¬ (((10 : ℚ) : ℝ) ≤ sseDist (fun _ => []) ((0 : ℚ), (0 : ℚ))
      ((0 : ℚ), (0 : ℚ)) none) := by
    rw [sseDist]
    have h0 : sqDist ((0 : ℚ), (0 : ℚ)) ((0 : ℚ), (0 : ℚ)) = 0 := by norm_num [sqDist]
    rw [h0]
    norm_num
  have hprep : ∀ s : List ℚ, s.getD 0 0 < 10 →
      getSsePrep (fun _ => []) [((0 : ℚ), (0 : ℚ))] s ((0 : ℚ), (0 : ℚ)) none 10 10 =
        (0, none) := by
    intro s hs
    rw [getSsePrep]
    have henum : ([((0 : ℚ), (0 : ℚ))] : List Q2).enum = [(0, ((0 : ℚ), (0 : ℚ)))] := rfl
    rw [henum, List.foldl_cons, List.foldl_nil, ssePrepStep]
    rw [Prod.ext_iff]
    refine ⟨rfl, ?_⟩
    simp only [if_neg hdist, ite_self]
    rfl
  constructor
  · have h := hprep [-1] (by norm_num)
    rw [squareSquareEnergyLoss, h]
    with_unfolding_all decide
  · have h := hprep [0] (by norm_num)
    rw [squareSquareEnergyLoss, h]
    with_unfolding_all decide

/-- C6 amended: the square-square energy loss is non-negative for every
score array, index choice and margin (both at the `from_prep` level and for
the composed loss), and — holding the other scores and the prep indices
fixed, with the offensive index (if any) different from the target index —
it is strictly increasing in the target score over NONNEGATIVE target
scores.  (The unrestricted strict monotonicity of the original claim fails:
the loss is the square of the target score, see the counterexample.) -/
theorem c6_amended :
    (∀ (scores : List ℚ) (tIdx : ℕ) (mo : Option ℕ) (m : ℚ),
        0 ≤ sseLossFromPrep scores tIdx mo m) ∧
      (∀ (rootsOf : CubicSolver) (goals : List Q2) (scores : List ℚ) (gt : Q2)
          (quad : Option Coeff) (m eps : ℚ),
        0 ≤ squareSquareEnergyLoss rootsOf goals scores gt quad m eps) ∧
      (∀ (scores : List ℚ) (tIdx : ℕ) (mo : Option ℕ) (m v : ℚ),
        tIdx < scores.length → (∀ j, mo = some j → j ≠ tIdx) →
        0 ≤ scores.getD tIdx 0 → scores.getD tIdx 0 < v →
        sseLossFromPrep scores tIdx mo m <
          sseLossFromPrep (scores.set tIdx v) tIdx mo m) := by
  have hnone : ∀ (scores : List ℚ) (tIdx : ℕ) (m : ℚ),
      sseLossFromPrep scores tIdx none m = (scores.getD tIdx 0) ^ 2 := fun _ _ _ => rfl
  have hsome : ∀ (scores : List ℚ) (tIdx j : ℕ) (m : ℚ),
      sseLossFromPrep scores tIdx (some j) m =
        if scores.getD j 0 < m then (scores.getD tIdx 0) ^ 2 + (m - scores.getD j 0) ^ 2
        else (scores.getD tIdx 0) ^ 2 := fun _ _ _ _ => rfl
  have h1 : ∀ (scores : List ℚ) (tIdx : ℕ) (mo : Option ℕ) (m : ℚ),
      0 ≤ sseLossFromPrep scores tIdx mo m := by
    intro scores tIdx mo m
    cases mo with
    | none => rw [hnone]; positivity
    | some j =>
      rw [hsome]
      split_ifs <;> positivity
  refine ⟨h1, fun rootsOf goals scores gt quad m eps => h1 _ _ _ _, ?_⟩
  intro scores tIdx mo m v hlt hmo h0 hv
  have hself := getD_set_self scores tIdx v hlt
  have hsq : scores.getD tIdx 0 ^ 2 < v ^ 2 := by nlinarith
  cases mo with
  | none =>
    rw [hnone, hnone, hself]
    exact hsq
  | some j =>
    have hne : tIdx ≠ j := fun he => (hmo j rfl) he.symm
    have hj := getD_set_ne scores tIdx j v hne
    rw [hsome, hsome, hself, hj]
    split_ifs
    · linarith
    · exact hsq

/-- Witness for `c6_amended`: concrete non-negativity and strict growth of
the loss on a nonnegative target score. -/
theorem c6_amended_witness :
    0 ≤ sseLossFromPrep [(-5 : ℚ)] 0 none 10 ∧
      sseLossFromPrep [(1 : ℚ)] 0 none 10 < sseLossFromPrep ([(1 : ℚ)].set 0 2) 0 none 10 :=
  ⟨c6_amended.1 [(-5 : ℚ)] 0 none 10,
   c6_amended.2.2 [(1 : ℚ)] 0 none 10 2 (by decide) (fun j h => Option.noConfusion h)
     (by with_unfolding_all decide) (by with_unfolding_all decide)⟩

/-- C7: with its default parameters (`neighbour_dis = 2`,
`density = 1.0` — a FLOAT), the dense lattice generator raises `TypeError`
on any in-range input point: it passes `density` as the `ndigits` argument
of `round` inside `get_points_remove_repeated`, and `round` rejects a
non-integer `ndigits`.  Both the generator call and the underlying
deduplication call crash instead of producing the deduplicated lattice the
claim describes. -/
theorem c7_generator_crashes :
    getNeighbourPointsNew [((0 : ℚ), (0 : ℚ))] 2 (.float 1) = none ∧
      getPointsRemoveRepeated [((0 : ℚ), (0 : ℚ))] (.float 1) = none := by
  constructor <;> with_unfolding_all decide

/-- Rounding an integer value is the identity. -/
theorem roundHalfEven_intCast (z : ℤ) : roundHalfEven (z : ℚ) = z := by
  simp only [roundHalfEven, Int.floor_intCast, sub_self]
  rw [if_pos (by norm_num)]

/-- `pyRoundTo` with an integer `ndigits` in closed form. -/
theorem pyRoundTo_int_eq (x : ℚ) (d : ℤ) :
    pyRoundTo x (.int d) = some ((roundHalfEven (x * 10 ^ d) : ℚ) / 10 ^ d) := rfl

/-- Re-rounding an already-rounded value (a multiple of `10^(-d)`) is the
identity. -/
theorem pyRoundTo_fix (x : ℚ) (d : ℤ) :
    pyRoundTo ((roundHalfEven (x * 10 ^ d) : ℚ) / 10 ^ d) (.int d) =
      some ((roundHalfEven (x * 10 ^ d) : ℚ) / 10 ^ d) := by
  have h10 : ((10 : ℚ) ^ d) ≠ 0 := by positivity
  rw [pyRoundTo_int_eq, div_mul_cancel₀ _ h10, roundHalfEven_intCast]

/-- With an integer precision, hashing always succeeds and the hash of a
point is a fixed point of the hash. -/
theorem getHashPoint_int_fix (d : ℤ) (p : Q2) :
    ∃ k, getHashPoint (.int d) p = some k ∧ getHashPoint (.int d) k = some k := by
  refine ⟨((roundHalfEven (p.1 * 10 ^ d) : ℚ) / 10 ^ d,
          (roundHalfEven (p.2 * 10 ^ d) : ℚ) / 10 ^ d), ?_, ?_⟩
  · rfl
  · rw [getHashPoint]
    have h1 := pyRoundTo_fix p.1 d
    have h2 := pyRoundTo_fix p.2 d
    rw [h1, h2]
    rfl

/-- The dict-insertion scan with integer precision always succeeds; its
output consists of hash-fixed points and has no duplicates (given that the
accumulator already does). -/
theorem dedupGo_int_spec (d : ℤ) :
    ∀ (pts acc : List Q2), (∀ k ∈ acc, getHashPoint (.int d) k = some k) → acc.Nodup →
      ∃ l, dedupGo (.int d) pts acc = some l ∧
        (∀ k ∈ l, getHashPoint (.int d) k = some k) ∧ l.Nodup
| [], acc, hfix, hnd => ⟨acc, rfl, hfix, hnd⟩
| p :: rest, acc, hfix, hnd => by
  obtain ⟨k, hk, hkfix⟩ := getHashPoint_int_fix d p
  have step : dedupGo (.int d) (p :: rest) acc =
      dedupGo (.int d) rest (if k ∈ acc then acc else acc ++ [k]) := by
    rw [show dedupGo (.int d) (p :: rest) acc =
        (match getHashPoint (.int d) p with
         | none => none
         | some k2 => dedupGo (.int d) rest (if k2 ∈ acc then acc else acc ++ [k2])) from
      rfl, hk]
  rw [step]
  by_cases hmem : k ∈ acc
  · rw [if_pos hmem]
    exact dedupGo_int_spec d rest acc hfix hnd
  · rw [if_neg hmem]
    refine dedupGo_int_spec d rest (acc ++ [k]) ?_ ?_
    · intro k' hk'
      rcases List.mem_append.mp hk' with h | h
      · exact hfix k' h
      · rw [List.mem_singleton.mp h]
        exact hkfix
    · rw [List.nodup_append]
      exact ⟨hnd, List.nodup_singleton k,
        fun a ha hb => hmem (by rwa [List.mem_singleton.mp hb] at ha)⟩

/-- Scanning a list of hash-fixed, duplicate-free points appends them to
the accumulator unchanged: deduplication is a no-op on its own output. -/
theorem dedupGo_fixed (d : ℤ) :
    ∀ (l acc : List Q2), (∀ k ∈ l, getHashPoint (.int d) k = some k) →
      (acc ++ l).Nodup → dedupGo (.int d) l acc = some (acc ++ l)
| [], acc, _, _ => by simp [dedupGo]
| p :: rest, acc, hfix, hnd => by
  have hp : getHashPoint (.int d) p = some p := hfix p (List.mem_cons_self p rest)
  have step : dedupGo (.int d) (p :: rest) acc =
      dedupGo (.int d) rest (if p ∈ acc then acc else acc ++ [p]) := by
    rw [show dedupGo (.int d) (p :: rest) acc =
        (match getHashPoint (.int d) p with
         | none => none
         | some k2 => dedupGo (.int d) rest (if k2 ∈ acc then acc else acc ++ [k2])) from
      rfl, hp]
  have hdisj := (List.nodup_append.mp hnd).2.2
  have hpnotin : p ∉ acc := fun hin => hdisj hin (List.mem_cons_self p rest)
  rw [step, if_neg hpnotin]
  have hnd2 : ((acc ++ [p]) ++ rest).Nodup := by
    rw [List.append_assoc]
    simpa using hnd
  have hrec := dedupGo_fixed d rest (acc ++ [p])
    (fun k hk => hfix k (List.mem_cons_of_mem p hk)) hnd2
  rw [hrec, List.append_assoc]
  rfl

/-- With an integer precision the deduplication is idempotent: it succeeds,
and running it again on its own output returns that output unchanged (the
behaviour the claim describes, obtained once the `ndigits` argument is an
integer). -/
theorem getPointsRemoveRepeated_int_idem (pts : List Q2) (d : ℤ) :
    ∃ l, getPointsRemoveRepeated pts (.int d) = some l ∧
      getPointsRemoveRepeated l (.int d) = some l := by
  obtain ⟨l, h1, hfix, hnd⟩ := dedupGo_int_spec d pts [] (by simp) List.nodup_nil
  refine ⟨l, h1, ?_⟩
  have h2 := dedupGo_fixed d l [] hfix (by simpa using hnd)
  simpa [getPointsRemoveRepeated] using h2

/-- The densification loop makes no progress on a one-point path: after any
number of iterations it is still running on the same path. -/
theorem densifyIter_singleton (p : Q2) : ∀ n : ℕ, densifyIter n [p] = .more [p]
| 0 => rfl
| n + 1 => by
  have h : densifyIter (n + 1) [p] = densifyIter n [p] := rfl
  rw [h, densifyIter_singleton p n]

/-- C8 counterexample: on the one-point reference path [(0,0)] the call does
NOT terminate with an error — the densification loop neither raises nor
exits after any number of iterations (it loops forever on the same path),
refuting the claim that every input shorter than 2 points fails loudly. -/
theorem c8_counterexample :
    ¬ ((∃ n, densifyIter n [((0 : ℚ), (0 : ℚ))] = LoopRes.err) ∨
        ∃ n l, densifyIter n [((0 : ℚ), (0 : ℚ))] = LoopRes.done l) := by
  rintro (⟨n, hn⟩ | ⟨n, l, hn⟩) <;> rw [densifyIter_singleton] at hn <;>
    exact LoopRes.noConfusion hn

/-- C8 amended: on the empty reference path `construct_reference_path`
raises at once (the `reference_path[-1]` of the first densification pass is
an `IndexError`); on a one-point path the densification loop never
terminates — it neither fails loudly nor returns a default. -/
theorem c8_amended :
    densifyIter 1 ([] : List Q2) = LoopRes.err ∧
      ∀ (p : Q2) (n : ℕ), densifyIter n [p] = LoopRes.more [p] :=
  ⟨rfl, densifyIter_singleton⟩

/-- C10: every centroid update of `get_optimal_targets_home_FDE` divides by
the sum of the weights of the goals within radius R of the centroid, and
that divisor is 0 for a concrete input — a single goal at (100,100), six
centroids at the origin and R = 3 select no goal, so the unguarded division
`np.sum(...) / np.sum(weights)` is 0/0 and the updated centroid is
undefined (NaN). -/
theorem c10_fde_divisor_zero :
    (∀ (goals : List Q2) (scores : List ℚ) (centroids : List Q2) (k : ℕ) (R : ℚ),
        fdeCentroidUpdate goals scores centroids k R =
          (fdeNumerX goals scores centroids k R / fdeWeightSum goals scores centroids k R,
           fdeNumerY goals scores centroids k R / fdeWeightSum goals scores centroids k R)) ∧
      fdeWeightSum [((100 : ℚ), (100 : ℚ))] [1] (List.replicate 6 ((0 : ℚ), (0 : ℚ))) 0 3 = 0 := by
  refine ⟨fun _ _ _ _ _ => rfl, ?_⟩
  have hidx : fdeIdx [((100 : ℚ), (100 : ℚ))]
      ((List.replicate 6 ((0 : ℚ), (0 : ℚ))).getD 0 (0, 0)) 3 = [] := by
    with_unfolding_all decide
  rw [fdeWeightSum, hidx]
  simp

/-- C9: `get_unit_vector(a, b)` fails with the division-by-zero error
exactly when `a = b`, and on distinct points returns the normalized
direction from a to b: a unit vector that is a positive multiple of
`b - a`. -/
theorem c9_unit_vector (a b : Q2) :
    (getUnitVector a b = none ↔ a = b) ∧
      ∀ u v : ℝ, getUnitVector a b = some (u, v) →
        u ^ 2 + v ^ 2 = 1 ∧
          ∃ k : ℝ, 0 < k ∧ u = k * ((b.1 - a.1 : ℚ) : ℝ) ∧ v = k * ((b.2 - a.2 : ℚ) : ℝ) := by
  have hiff : ((b.1 - a.1 : ℚ) ^ 2 + (b.2 - a.2 : ℚ) ^ 2 = 0) ↔ a = b := by
    constructor
    · intro h
      have h1 : b.1 - a.1 = 0 := by nlinarith [sq_nonneg (b.1 - a.1), sq_nonneg (b.2 - a.2)]
      have h2 : b.2 - a.2 = 0 := by nlinarith [sq_nonneg (b.1 - a.1), sq_nonneg (b.2 - a.2)]
      have e1 : a.1 = b.1 := by linarith
      have e2 : a.2 = b.2 := by linarith
      rw [Prod.ext_iff]
      exact ⟨e1, e2⟩
    · rintro rfl
      ring
  constructor
  · simp only [getUnitVector]
    by_cases h : ((b.1 - a.1 : ℚ) ^ 2 + (b.2 - a.2 : ℚ) ^ 2 = 0)
    · rw [if_pos h]
      exact iff_of_true rfl (hiff.mp h)
    · rw [if_neg h]
      constructor
      · intro hc
        exact absurd hc (Option.some_ne_none _)
      · intro hab
        exact absurd (hiff.mpr hab) h
  · intro u v hsome
    simp only [getUnitVector] at hsome
    by_cases h : ((b.1 - a.1 : ℚ) ^ 2 + (b.2 - a.2 : ℚ) ^ 2 = 0)
    · rw [if_pos h] at hsome
      exact Option.noConfusion hsome
    · rw [if_neg h] at hsome
      have hposQ : (0 : ℚ) < (b.1 - a.1) ^ 2 + (b.2 - a.2) ^ 2 :=
        lt_of_le_of_ne (by positivity) (Ne.symm h)
      have hposR : (0 : ℝ) < (((b.1 - a.1 : ℚ) ^ 2 + (b.2 - a.2 : ℚ) ^ 2 : ℚ) : ℝ) := by
        exact_mod_cast hposQ
      have hsqrt : 0 < Real.sqrt (((b.1 - a.1 : ℚ) ^ 2 + (b.2 - a.2 : ℚ) ^ 2 : ℚ) : ℝ) :=
        Real.sqrt_pos.mpr hposR
      have hu : ((b.1 - a.1 : ℚ) : ℝ) *
          (1 / Real.sqrt (((b.1 - a.1 : ℚ) ^ 2 + (b.2 - a.2 : ℚ) ^ 2 : ℚ) : ℝ)) = u :=
        congrArg Prod.fst (Option.some.inj hsome)
      have hv : ((b.2 - a.2 : ℚ) : ℝ) *
          (1 / Real.sqrt (((b.1 - a.1 : ℚ) ^ 2 + (b.2 - a.2 : ℚ) ^ 2 : ℚ) : ℝ)) = v :=
        congrArg Prod.snd (Option.some.inj hsome)
      have hsq : Real.sqrt (((b.1 - a.1 : ℚ) ^ 2 + (b.2 - a.2 : ℚ) ^ 2 : ℚ) : ℝ) ^ 2 =
          (((b.1 - a.1 : ℚ) ^ 2 + (b.2 - a.2 : ℚ) ^ 2 : ℚ) : ℝ) :=
        Real.sq_sqrt hposR.le
      have hcast : (((b.1 - a.1 : ℚ) ^ 2 + (b.2 - a.2 : ℚ) ^ 2 : ℚ) : ℝ) =
          ((b.1 - a.1 : ℚ) : ℝ) ^ 2 + ((b.2 - a.2 : ℚ) : ℝ) ^ 2 := by push_cast; ring
      constructor
      · rw [← hu, ← hv]
        have hexp : (((b.1 - a.1 : ℚ) : ℝ) *
              (1 / Real.sqrt (((b.1 - a.1 : ℚ) ^ 2 + (b.2 - a.2 : ℚ) ^ 2 : ℚ) : ℝ))) ^ 2 +
            (((b.2 - a.2 : ℚ) : ℝ) *
              (1 / Real.sqrt (((b.1 - a.1 : ℚ) ^ 2 + (b.2 - a.2 : ℚ) ^ 2 : ℚ) : ℝ))) ^ 2 =
            (((b.1 - a.1 : ℚ) : ℝ) ^ 2 + ((b.2 - a.2 : ℚ) : ℝ) ^ 2) /
              Real.sqrt (((b.1 - a.1 : ℚ) ^ 2 + (b.2 - a.2 : ℚ) ^ 2 : ℚ) : ℝ) ^ 2 := by
          field_simp
        rw [hexp, hsq, ← hcast]
        exact div_self (ne_of_gt hposR)
      · refine ⟨1 / Real.sqrt (((b.1 - a.1 : ℚ) ^ 2 + (b.2 - a.2 : ℚ) ^ 2 : ℚ) : ℝ),
          by positivity, ?_, ?_⟩
        · rw [← hu]; ring
        · rw [← hv]; ring

/-- Witness for `c9_unit_vector` at a = (0,0), b = (3,4): the vector is
(3/5, 4/5). -/
theorem c9_witness :
    (getUnitVector ((0 : ℚ), (0 : ℚ)) (3, 4) = none ↔ ((0 : ℚ), (0 : ℚ)) = ((3 : ℚ), (4 : ℚ))) ∧
      ((3 : ℝ) / 5) ^ 2 + ((4 : ℝ) / 5) ^ 2 = 1 ∧
        ∃ k : ℝ, 0 < k ∧ (3 : ℝ) / 5 = k * ((((3 : ℚ), (4 : ℚ)).1 - ((0 : ℚ), (0 : ℚ)).1 : ℚ) : ℝ) ∧
          (4 : ℝ) / 5 = k * ((((3 : ℚ), (4 : ℚ)).2 - ((0 : ℚ), (0 : ℚ)).2 : ℚ) : ℝ) := by
  have h := c9_unit_vector ((0 : ℚ), (0 : ℚ)) ((3 : ℚ), (4 : ℚ))
  have hs : Real.sqrt (25 : ℝ) = 5 := by
    rw [show (25 : ℝ) = 5 ^ 2 by norm_num]
    exact Real.sqrt_sq (by norm_num)
  have key : getUnitVector ((0 : ℚ), (0 : ℚ)) ((3 : ℚ), (4 : ℚ)) =
      some ((3 : ℝ) / 5, (4 : ℝ) / 5) := by
    simp only [getUnitVector]
    rw [if_neg (by norm_num)]
    norm_num [hs]
  exact ⟨h.1, h.2 ((3 : ℝ) / 5) ((4 : ℝ) / 5) key⟩

end SoftDense
